import Mathlib

/-!
Verification of the static-site build pipeline (`src/index.js`).

The repository holds two revisions of the pipeline: an early one (static and
image files only, with a plain `Pipe.pipe` that pushes unconditionally) and
the full one (post parsing, Pug templating, aggregation, and a deduplicating
`Pipe.pipe`).  Every definition below is a shallow embedding of a function or
method of that source; doc comments name the JavaScript entity embedded.
Strings are modelled by Lean `String`, JavaScript arrays by `List`, and the
insertion-ordered JavaScript object used for metadata by an ordered
association structure with JavaScript assignment semantics (updating an
existing key keeps its position, a new key is appended).
-/

/-- Model of JavaScript `String.prototype.split` with a one-character
separator: splits into the (possibly empty) chunks between separators;
`"".split(sep)` gives `[""]`. -/
def splitOnChar (sep : Char) : List Char → List (List Char)
  | [] => [[]]
  | c :: rest =>
    if c = sep then [] :: splitOnChar sep rest
    else
      match splitOnChar sep rest with
      | l :: ls => (c :: l) :: ls
      | [] => [[c]]

/-- `file.content.toString('utf8').split('\n')` from `PostParser.operate`. -/
def jsSplitLines (s : String) : List String :=
  (splitOnChar '\n' s.data).map (fun l => ⟨l⟩)

/-- `lines.join('\n')` from `PostParser.operate`. -/
def joinNl : List String → String
  | [] => ""
  | [l] => l
  | l :: ls => l ++ "\n" ++ joinNl ls

/-- The whitespace characters stripped by JavaScript `String.prototype.trim`
(restricted to the ASCII whitespace that can occur inside a line here). -/
def isJsSpace (c : Char) : Bool :=
  c = ' ' || c = '\t' || c = '\r' || c = '\n'

/-- Model of JavaScript `String.prototype.trim`: strip leading and trailing
whitespace. -/
def jsTrim (s : String) : String :=
  ⟨((s.data.dropWhile isJsSpace).reverse.dropWhile isJsSpace).reverse⟩

/-- `m[2].split(',').map(str => str.trim())` from `PostParser.operate`: the
comma-separated value list of a metadata entry, each value trimmed. -/
def splitTrim (s : String) : List String :=
  (splitOnChar ',' s.data).map (fun l => jsTrim ⟨l⟩)

/-!
## The two line patterns of the post parser

`metadataRegex = /^- *(.+): *(.+)$/` and `titleRegex = /^# *(.+)$/` are
modelled by explicit backtracking matchers with JavaScript's leftmost-greedy
semantics: a quantifier first consumes as much as possible and gives back
only as needed.
-/

/-- Matcher for a trailing `" *(.+)$"`: greedily skip spaces, but keep at
least one character for the final group (backtracking).  Returns the text
captured by the final `(.+)`.  Fails exactly on the empty input. -/
def matchSpacesThenRest : List Char → Option (List Char)
  | [] => none
  | c :: ws =>
    if c = ' ' then
      match matchSpacesThenRest ws with
      | some r => some r
      | none => some (c :: ws)
    else some (c :: ws)

/-- Matcher for `"(.+): *(.+)$"`: the first group is greedy, so the colon
used for the split is the rightmost one whose right-hand side still matches
`" *(.+)$"`.  `acc` holds the (reversed) characters already committed to the
first group. -/
def matchKeyRest : List Char → List Char → Option (List Char × List Char)
  | [], _ => none
  | c :: rest, acc =>
    match matchKeyRest rest (c :: acc) with
    | some r => some r
    | none =>
      if c = ':' ∧ acc ≠ [] then
        match matchSpacesThenRest rest with
        | some v => some (acc.reverse, v)
        | none => none
      else none

/-- Matcher for `" *(.+): *(.+)$"` (the part of `metadataRegex` after the
dash): greedily consume leading spaces, backtracking them into the first
group if needed. -/
def matchAfterDash : List Char → Option (List Char × List Char)
  | [] => matchKeyRest [] []
  | c :: rest =>
    if c = ' ' then
      match matchAfterDash rest with
      | some r => some r
      | none => matchKeyRest (c :: rest) []
    else matchKeyRest (c :: rest) []

/-- `metadataRegex.exec(line)`: on success returns the two capture groups
(key, raw value list). -/
def metadataMatch (s : String) : Option (String × String) :=
  match s.data with
  | [] => none
  | c :: t =>
    if c = '-' then
      match matchAfterDash t with
      | some (k, v) => some (⟨k⟩, ⟨v⟩)
      | none => none
    else none

/-- `titleRegex.exec(line)`: on success returns the captured title text. -/
def titleMatch (s : String) : Option String :=
  match s.data with
  | [] => none
  | c :: t =>
    if c = '#' then (matchSpacesThenRest t).map (fun l => ⟨l⟩) else none

/-!
## FileData and metadata

`FileData` (`class FileData`) carries path components, content and metadata.
Its `metadata` is a JavaScript object used as an insertion-ordered map whose
values are string arrays (metadata entries), a plain string (the synthesized
`title`), or an array of records (the aggregator's `inputs`); the three
types are mutually recursive.
-/

mutual

inductive FileData : Type where
  | mk (rootdir dirname extname basename : String) (content : String)
      (metadata : Metadata) : FileData

inductive Metadata : Type where
  | nil : Metadata
  | cons (key : String) (val : MetaValue) (rest : Metadata) : Metadata

inductive MetaValue : Type where
  | strs (vs : List String) : MetaValue
  | str (s : String) : MetaValue
  | files (fs : FileList) : MetaValue

inductive FileList : Type where
  | nil : FileList
  | cons (f : FileData) (rest : FileList) : FileList

end

def FileData.rootdir : FileData → String
  | .mk r _ _ _ _ _ => r

def FileData.dirname : FileData → String
  | .mk _ d _ _ _ _ => d

def FileData.extname : FileData → String
  | .mk _ _ e _ _ _ => e

def FileData.basename : FileData → String
  | .mk _ _ _ b _ _ => b

def FileData.content : FileData → String
  | .mk _ _ _ _ c _ => c

def FileData.metadata : FileData → Metadata
  | .mk _ _ _ _ _ m => m

/-- `file.content = ...` (field assignment, modelled functionally). -/
def FileData.setContent : FileData → String → FileData
  | .mk r d e b _ m, c => .mk r d e b c m

/-- `file.extname = ...`. -/
def FileData.setExtname : FileData → String → FileData
  | .mk r d _ b c m, e => .mk r d e b c m

/-- `file.metadata = ...`. -/
def FileData.setMetadata : FileData → Metadata → FileData
  | .mk r d e b c _, m => .mk r d e b c m

/-- JavaScript object property assignment `obj[k] = v` on the metadata
object: an existing (string) key keeps its position, a new key is appended
at the end. -/
def Metadata.set : Metadata → String → MetaValue → Metadata
  | .nil, k, v => .cons k v .nil
  | .cons k' v' rest, k, v =>
    if k' = k then .cons k' v rest else .cons k' v' (Metadata.set rest k v)

/-- JavaScript object property lookup `obj[k]` on the metadata object. -/
def Metadata.find : Metadata → String → Option MetaValue
  | .nil, _ => none
  | .cons k' v rest, k => if k' = k then some v else Metadata.find rest k

/-- The keys of the metadata object, in property order. -/
def Metadata.keys : Metadata → List String
  | .nil => []
  | .cons k _ rest => k :: Metadata.keys rest

/-- Concatenation of two metadata objects (used to state how parsing appends
fresh keys). -/
def Metadata.append : Metadata → Metadata → Metadata
  | .nil, b => b
  | .cons k v rest, b => .cons k v (Metadata.append rest b)

/-- Conversion from a Lean list of records to the embedded array type. -/
def FileList.ofList : List FileData → FileList
  | [] => .nil
  | f :: fs => .cons f (FileList.ofList fs)

/-!
## The post parser (`class PostParser`)

The `while` loop of `PostParser.operate` scans lines from the top: blank
lines are skipped, a `metadataRegex` match stores the split-and-trimmed
value list under the captured key, a `titleRegex` match stores the captured
title under `title` and stops the scan (the title line has already been
`shift`ed off), and any other line raises `fail('The post is malformed.')`.
The markdown renderer (`showdown`, out of scope per the spec) is passed in
as an opaque function `render`.
-/

/-- The scanning loop of `PostParser.operate`: returns the final metadata
object and the remaining (body) lines, or the failure message. -/
def parseMetaLoop : List String → Metadata → Except String (Metadata × List String)
  | [], md => .ok (md, [])
  | line :: rest, md =>
    if line = "" then parseMetaLoop rest md
    else
      match metadataMatch line with
      | some (k, v) => parseMetaLoop rest (md.set k (.strs (splitTrim v)))
      | none =>
        match titleMatch line with
        | some t => .ok (md.set "title" (.str t), rest)
        | none => .error "The post is malformed."

/-- `PostParser.operate(file)`: parse the metadata preamble, then replace
`content` by the rendered remaining lines and `extname` by `.html`.  A
raised `fail` is modelled as `Except.error`, which produces no output
record (`Pipe.execute` only forwards a produced output). -/
def PostParser.operate (render : String → String) (file : FileData) :
    Except String FileData :=
  match parseMetaLoop (jsSplitLines file.content) .nil with
  | .ok (md, rest) =>
    .ok (((file.setMetadata md).setContent (render (joinNl rest))).setExtname ".html")
  | .error e => .error e

/-!
## Pipe linking (`class Pipe`)

A `Pipe` keeps a `nextPipes` array of downstream nodes; `execute` runs
`operate` and, when an output is produced, calls `next.execute(output)` once
per entry of `nextPipes` (`this.nextPipes.map(next => next.execute(output))`).
Nodes are compared by JavaScript reference identity, modelled by natural
number identifiers; the number of `execute` invocations a downstream node
receives per upstream emission is its multiplicity in `nextPipes`.
-/

/-- `Pipe.pipe` of the early revision: `this.nextPipes.push(nextPipe)`,
unconditionally. -/
def PipeEarly.pipe (nextPipes : List Nat) (next : Nat) : List Nat :=
  nextPipes ++ [next]

/-- `Pipe.pipe` of the full revision:
`if (!this.nextPipes.includes(nextPipe)) this.nextPipes.push(nextPipe)`. -/
def Pipe.pipe (nextPipes : List Nat) (next : Nat) : List Nat :=
  if next ∈ nextPipes then nextPipes else nextPipes ++ [next]

/-!
## The template stage (`class PugCompiler`)

The stage stores its compiled template in a promise; a data input awaits
that promise, so data fed before the template is suspended and resumes (in
arrival order) when the template resolves.  This deferred-readiness
behaviour is modelled by an explicit state: the resolved template, if any,
plus the queue of suspended data inputs.  `pug.compile` (out of scope per
the spec) is passed in as an opaque `compile` function; the compiled
template is a function from the record (the rendering context) to the
rendered text, exactly as `template(input)` is used in the source.  A
resolve on an already-resolved promise is a no-op, so a second template
input leaves the stored template unchanged.
-/

structure PugState where
  template : Option (FileData → String)
  pending : List FileData

/-- The freshly constructed `PugCompiler`: unresolved template, nothing
suspended. -/
def pugInit : PugState := ⟨none, []⟩

/-- `PugCompiler.operate(input)`, as a state transformer returning the new
state and the list of records it emits (a suspended data input is emitted
when the template resolves; the template input itself emits nothing). -/
def PugCompiler.operate (compile : String → FileData → String) (s : PugState)
    (input : FileData) : PugState × List FileData :=
  if input.extname == ".pug" then
    match s.template with
    | none =>
      let t := compile input.content
      (⟨some t, []⟩, s.pending.map (fun p => p.setContent (t p)))
    | some t => (⟨some t, s.pending⟩, [])
  else
    match s.template with
    | some t => (s, [input.setContent (t input)])
    | none => (⟨none, s.pending ++ [input]⟩, [])

/-- Feeding a sequence of inputs to a `PugCompiler`, collecting every
emitted record in order. -/
def pugRun (compile : String → FileData → String) (s : PugState) :
    List FileData → PugState × List FileData
  | [] => (s, [])
  | i :: is =>
    let (s', out) := PugCompiler.operate compile s i
    let (s'', outs) := pugRun compile s' is
    (s'', out ++ outs)

/-!
## The aggregation stage (`class Aggregator`)

`Aggregator.operate` pushes each input onto `this.inputs`; when the buffer
length equals `aggregationCount` it sorts the buffer with the comparator,
stores it under `this.file.metadata.inputs`, empties the buffer, and emits
`this.file`.  `Array.prototype.sort` with a consistent comparator is
specified (ES2019) to produce the stable order: sorted by the comparator,
ties in original order; `jsSort` is that stable sort.
-/

/-- Insert into a list sorted by comparator `c`, before the first element
the comparator does not place strictly earlier (stable insertion). -/
def jsSortInsert (c : α → α → Int) (x : α) : List α → List α
  | [] => [x]
  | y :: ys => if c x y ≤ 0 then x :: y :: ys else y :: jsSortInsert c x ys

/-- Model of `Array.prototype.sort(c)` for a consistent comparator `c`:
the stable sort by `c`. -/
def jsSort (c : α → α → Int) : List α → List α
  | [] => []
  | x :: xs => jsSortInsert c x (jsSort c xs)

/-- Lexicographic three-way comparison of character lists by code point. -/
def lexCompare : List Char → List Char → Int
  | [], [] => 0
  | [], _ :: _ => -1
  | _ :: _, [] => 1
  | a :: as, b :: bs =>
    if a.toNat < b.toNat then -1
    else if b.toNat < a.toNat then 1
    else lexCompare as bs

/-- Model of `a.localeCompare(b)` on the plain ASCII date strings used
here: lexicographic string comparison returning -1, 1 or 0. -/
def localeCompare (a b : String) : Int :=
  lexCompare a.data b.data

/-- `x.metadata.date[0]`: the first entry of the `date` metadata value (the
source assumes it is present; the model defaults to `""`). -/
def FileData.date0 (f : FileData) : String :=
  match f.metadata.find "date" with
  | some (.strs (d :: _)) => d
  | _ => ""

/-- The `postAggregator` comparator:
`(x, y) => -x.metadata.date[0].localeCompare(y.metadata.date[0])`. -/
def postCompare (x y : FileData) : Int :=
  -(localeCompare x.date0 y.date0)

/-- The mutable state of an `Aggregator`: the `inputs` buffer and the
synthetic output record `this.file` (constructed once and mutated on every
emission). -/
structure AggState where
  buf : List FileData
  file : FileData

/-- `Aggregator.operate(input)` with configuration `count`
(`aggregationCount`) and comparator `c` (`compareFunction`), as a state
transformer returning the new state and the emitted record, if any. -/
def Aggregator.operate (count : Nat) (c : FileData → FileData → Int)
    (s : AggState) (input : FileData) : AggState × Option FileData :=
  let buf := s.buf ++ [input]
  if buf.length = count then
    let f := s.file.setMetadata (s.file.metadata.set "inputs"
      (.files (FileList.ofList (jsSort c buf))))
    (⟨[], f⟩, some f)
  else (⟨buf, s.file⟩, none)

/-- Feeding a sequence of inputs to an `Aggregator`, collecting every
emitted record in order. -/
def aggRun (count : Nat) (c : FileData → FileData → Int) (s : AggState) :
    List FileData → AggState × List FileData
  | [] => (s, [])
  | i :: is =>
    let (s', out) := Aggregator.operate count c s i
    let (s'', outs) := aggRun count c s' is
    (s'', out.toList ++ outs)

/-- The record the aggregator emits after a complete batch `l`, starting
from synthetic record `f0`. -/
def aggEmit (c : FileData → FileData → Int) (f0 : FileData) (l : List FileData) :
    FileData :=
  f0.setMetadata (f0.metadata.set "inputs" (.files (FileList.ofList (jsSort c l))))

/-!
Concrete records used by counterexamples and witnesses: three posts dated
as in the spec's ordering property, an aggregate record, two templates and
a data record.
-/

def p10 : FileData :=
  .mk "" "posts" ".md" "a" "pa" (.cons "date" (.strs ["2020-12-10"]) .nil)

def p08 : FileData :=
  .mk "" "posts" ".md" "b" "pb" (.cons "date" (.strs ["2020-12-08"]) .nil)

def p09 : FileData :=
  .mk "" "posts" ".md" "c" "pc" (.cons "date" (.strs ["2020-12-09"]) .nil)

def idx0 : FileData := .mk "" "." ".html" "index" "" .nil

def tmplA : FileData := .mk "" "templates" ".pug" "post" "A" .nil

def tmplB : FileData := .mk "" "templates" ".pug" "post" "B" .nil

def dRec : FileData := .mk "" "posts" ".md" "d" "body" .nil

/-- A concrete template engine for witnesses: the compiled template renders
the template source followed by the record's content. -/
def compile0 (src : String) (f : FileData) : String := src ++ "|" ++ f.content

/-- A concrete template engine whose output is the template source alone
(used to observe which template a stage rendered with). -/
def compileSrc (src : String) (_f : FileData) : String := src

/-- A comparator of the shape used by `postAggregator`: descending in a
string-valued key. -/
def keyCompare (key : α → String) (x y : α) : Int :=
  -(localeCompare (key x) (key y))

/-- The order the `postAggregator` comparator sorts into: `x` may come
before `y` when `y`'s key is at most `x`'s key (descending). -/
def keyGe (key : α → String) (x y : α) : Prop :=
  localeCompare (key y) (key x) ≤ 0

/-!
## Parsing lemmas

`lineKey`, `entriesOf` and `mdFold` describe what the scanning loop builds;
`serializeEntry`/`serializeMeta`/`canonLine` re-serialize a metadata
mapping back into `- key: v1, v2` lines (the spec's round-trip is stated
over this canonical serialization, which is not part of the source).
-/

/-- The key a line contributes, when it is a metadata entry. -/
def lineKey (l : String) : Option String :=
  (metadataMatch l).map Prod.fst

/-- The metadata entries contributed by a list of lines, one per matching
line, in line order (later duplicates not collapsed). -/
def entriesOf : List String → Metadata
  | [] => .nil
  | l :: ls =>
    match metadataMatch l with
    | some (k, v) => .cons k (.strs (splitTrim v)) (entriesOf ls)
    | none => entriesOf ls

/-- The metadata object the scanning loop accumulates over a list of lines
that are all blank or metadata entries (JavaScript assignment semantics). -/
def mdFold : List String → Metadata → Metadata
  | [], md => md
  | l :: ls, md =>
    match metadataMatch l with
    | some (k, v) => mdFold ls (md.set k (.strs (splitTrim v)))
    | none => mdFold ls md

/-- Join strings with a separator (used by the canonical serializer). -/
def joinSep (sep : String) : List String → String
  | [] => ""
  | [v] => v
  | v :: vs => v ++ sep ++ joinSep sep vs

/-- Canonical serialization of one metadata entry, per the spec's
`- key: v1, v2, v3` format. -/
def serializeEntry (k : String) (vs : List String) : String :=
  "- " ++ k ++ ": " ++ joinSep ", " vs

/-- Canonical serialization of a metadata mapping: one line per string-array
entry, in property order. -/
def serializeMeta : Metadata → List String
  | .nil => []
  | .cons k (.strs vs) rest => serializeEntry k vs :: serializeMeta rest
  | .cons _ _ rest => serializeMeta rest

/-- The canonical (whitespace-trimmed) form of a metadata line. -/
def canonLine (l : String) : String :=
  match metadataMatch l with
  | some (k, v) => serializeEntry k (splitTrim v)
  | none => l

/-!
Concrete posts used by witnesses for the parser claims.
-/

def fHello : FileData := .mk "" "posts" ".md" "h" "# Hello\nWorld" .nil

def fW1 : FileData := .mk "" "posts" ".md" "w1" "- a: 1\n# T\nbody" .nil

def fBad : FileData := .mk "" "posts" ".md" "w6" "not valid metadata\n# T" .nil

def fTitleKey : FileData := .mk "" "posts" ".md" "t" "- title: x" .nil

def fNoTitle : FileData := .mk "" "posts" ".md" "w9" "- date: 2020-12-10\n\n- tags: a, b" .nil

example : metadataMatch "- date: 2020-12-10" = some ("date", "2020-12-10") := by decide
example : metadataMatch "- tags: Brave, News Reader, Browser" =
    some ("tags", "Brave, News Reader, Browser") := by decide
example : metadataMatch "- time: 12:30" = some ("time: 12", "30") := by decide
example : metadataMatch "- a:b:" = some ("a", "b:") := by decide
example : metadataMatch "not valid metadata" = none := by decide
example : metadataMatch "-: x" = none := by decide
example : metadataMatch "- : x" = some (" ", "x") := by decide
example : titleMatch "# Brave Introduces" = some "Brave Introduces" := by decide
example : titleMatch "#" = none := by decide
example : splitTrim "Brave, News Reader, Browser" = ["Brave", "News Reader", "Browser"] := by
  decide
example : jsSplitLines "a\n\nb" = ["a", "", "b"] := by decide

example :
    PostParser.operate id (.mk "" "posts" ".md" "p" "- date: 2020-12-10\n\n# T\nbody" .nil) =
      .ok (.mk "" "posts" ".html" "p" "body"
        (.cons "date" (.strs ["2020-12-10"]) (.cons "title" (.str "T") .nil))) := by
  rfl

example : jsSort postCompare [p10, p08, p09] = [p10, p09, p08] := by rfl
example : (aggRun 3 postCompare ⟨[], idx0⟩ [p10, p08, p09]).2 =
    [aggEmit postCompare idx0 [p10, p08, p09]] := by rfl
example : (pugRun compileSrc pugInit [tmplA, tmplB, dRec]).2.map FileData.content =
    ["A"] := by rfl
example : (pugRun compile0 pugInit [dRec, tmplA]).2 =
    [dRec.setContent "A|body"] := by rfl

/-!
## Order lemmas for the comparator model
-/

theorem lexCompare_self : ∀ l : List Char, lexCompare l l = 0 := by
  intro l
  induction l with
  | nil => rfl
  | cons x xs ih => simp [lexCompare, ih]

theorem lexCompare_swap (a b : List Char) : lexCompare a b = -(lexCompare b a) := by
  induction a generalizing b with
  | nil => cases b <;> simp [lexCompare]
  | cons x xs ih =>
    cases b with
    | nil => simp [lexCompare]
    | cons y ys =>
      simp only [lexCompare]
      split_ifs <;> first | omega | exact ih ys

theorem lexCompare_le_trans :
    ∀ a b c : List Char, lexCompare a b ≤ 0 → lexCompare b c ≤ 0 → lexCompare a c ≤ 0 := by
  intro a
  induction a with
  | nil => intro b c _ _; cases c <;> simp [lexCompare]
  | cons x xs ih =>
    intro b c hab hbc
    cases b with
    | nil => simp [lexCompare] at hab
    | cons y ys =>
      cases c with
      | nil => simp [lexCompare] at hbc
      | cons z zs =>
        simp only [lexCompare] at hab hbc ⊢
        split_ifs at hab hbc ⊢ <;> try omega
        all_goals exact ih ys zs hab hbc

theorem localeCompare_self (a : String) : localeCompare a a = 0 :=
  lexCompare_self a.data

theorem localeCompare_le_trans (a b c : String) (h1 : localeCompare a b ≤ 0)
    (h2 : localeCompare b c ≤ 0) : localeCompare a c ≤ 0 :=
  lexCompare_le_trans a.data b.data c.data h1 h2

/-- `postCompare` is `keyCompare` at the key `x.metadata.date[0]`. -/
theorem postCompare_def : postCompare = keyCompare FileData.date0 := rfl

theorem keyCompare_le_iff (key : α → String) (x y : α) :
    keyCompare key x y ≤ 0 ↔ keyGe key x y := by
  unfold keyCompare keyGe localeCompare
  rw [lexCompare_swap]
  omega

theorem keyGe_trans (key : α → String) {x y z : α} (h1 : keyGe key x y)
    (h2 : keyGe key y z) : keyGe key x z :=
  localeCompare_le_trans (key z) (key y) (key x) h2 h1

theorem keyCompare_not_le (key : α → String) {x y : α}
    (h : ¬ keyCompare key x y ≤ 0) : keyGe key y x ∧ key x ≠ key y := by
  unfold keyCompare at h
  constructor
  · unfold keyGe
    omega
  · intro he
    rw [he, localeCompare_self] at h
    omega

theorem mem_jsSortInsert (c : α → α → Int) (x z : α) (l : List α) :
    z ∈ jsSortInsert c x l ↔ z = x ∨ z ∈ l := by
  induction l with
  | nil => simp [jsSortInsert]
  | cons y ys ih =>
    by_cases h : c x y ≤ 0
    · simp [jsSortInsert, h]
    · simp only [jsSortInsert, if_neg h, List.mem_cons, ih]
      tauto

theorem pairwise_jsSortInsert (key : α → String) (x : α) (l : List α)
    (hl : l.Pairwise (keyGe key)) :
    (jsSortInsert (keyCompare key) x l).Pairwise (keyGe key) := by
  induction l with
  | nil => simp [jsSortInsert]
  | cons y ys ih =>
    rw [List.pairwise_cons] at hl
    obtain ⟨hy, hys⟩ := hl
    by_cases h : keyCompare key x y ≤ 0
    · have hxy : keyGe key x y := (keyCompare_le_iff key x y).mp h
      simp only [jsSortInsert, if_pos h]
      refine List.Pairwise.cons ?_ (List.Pairwise.cons hy hys)
      intro z hz
      rcases List.mem_cons.mp hz with rfl | hz
      · exact hxy
      · exact keyGe_trans key hxy (hy z hz)
    · have hyx := (keyCompare_not_le key h).1
      simp only [jsSortInsert, if_neg h]
      refine List.Pairwise.cons ?_ (ih hys)
      intro z hz
      rcases (mem_jsSortInsert (keyCompare key) x z ys).mp hz with rfl | hz
      · exact hyx
      · exact hy z hz

theorem pairwise_jsSort (key : α → String) (l : List α) :
    (jsSort (keyCompare key) l).Pairwise (keyGe key) := by
  induction l with
  | nil => simp [jsSort]
  | cons x xs ih => exact pairwise_jsSortInsert key x _ ih

theorem filter_jsSortInsert_ne (key : α → String) (x : α) (d : String)
    (hx : key x ≠ d) (l : List α) :
    (jsSortInsert (keyCompare key) x l).filter (fun z => key z == d) =
      l.filter (fun z => key z == d) := by
  induction l with
  | nil => simp [jsSortInsert, List.filter_cons, beq_iff_eq, hx]
  | cons y ys ih =>
    by_cases h : keyCompare key x y ≤ 0 <;>
      simp [jsSortInsert, h, List.filter_cons, beq_iff_eq, hx, ih]

theorem filter_jsSortInsert_eq (key : α → String) (x : α) (d : String)
    (hx : key x = d) (l : List α) (hl : l.Pairwise (keyGe key)) :
    (jsSortInsert (keyCompare key) x l).filter (fun z => key z == d) =
      x :: l.filter (fun z => key z == d) := by
  induction l with
  | nil => simp [jsSortInsert, List.filter_cons, beq_iff_eq, hx]
  | cons y ys ih =>
    rw [List.pairwise_cons] at hl
    by_cases h : keyCompare key x y ≤ 0
    · simp [jsSortInsert, h, List.filter_cons, beq_iff_eq, hx]
    · have hy : key y ≠ d := by
        intro hyd
        exact (keyCompare_not_le key h).2 (hx.trans hyd.symm)
      simp [jsSortInsert, h, List.filter_cons, beq_iff_eq, hy, ih hl.2]

theorem filter_jsSort (key : α → String) (d : String) (l : List α) :
    (jsSort (keyCompare key) l).filter (fun z => key z == d) =
      l.filter (fun z => key z == d) := by
  induction l with
  | nil => rfl
  | cons x xs ih =>
    by_cases hx : key x = d
    · rw [jsSort, filter_jsSortInsert_eq key x d hx _ (pairwise_jsSort key xs), ih,
        List.filter_cons, if_pos (by simp [beq_iff_eq, hx])]
    · rw [jsSort, filter_jsSortInsert_ne key x d hx, ih,
        List.filter_cons, if_neg (by simp [beq_iff_eq, hx])]

/-!
## Run lemmas for the aggregation stage
-/

theorem aggRun_nil (count : Nat) (c : FileData → FileData → Int) (s : AggState) :
    aggRun count c s [] = (s, []) := rfl

theorem aggRun_cons (count : Nat) (c : FileData → FileData → Int) (s : AggState)
    (i : FileData) (is : List FileData) :
    aggRun count c s (i :: is) =
      ((aggRun count c (Aggregator.operate count c s i).1 is).1,
        (Aggregator.operate count c s i).2.toList ++
          (aggRun count c (Aggregator.operate count c s i).1 is).2) := rfl

/-- One `Aggregator.operate` step that leaves the buffer short of `count`. -/
theorem aggOperate_under (count : Nat) (c : FileData → FileData → Int)
    (b : List FileData) (f i : FileData) (h : b.length + 1 ≠ count) :
    Aggregator.operate count c ⟨b, f⟩ i = (⟨b ++ [i], f⟩, none) := by
  simp [Aggregator.operate, h]

/-- One `Aggregator.operate` step that completes the batch. -/
theorem aggOperate_hit (count : Nat) (c : FileData → FileData → Int)
    (b : List FileData) (f i : FileData) (h : b.length + 1 = count) :
    Aggregator.operate count c ⟨b, f⟩ i =
      (⟨[], aggEmit c f (b ++ [i])⟩, some (aggEmit c f (b ++ [i]))) := by
  have h' : (b ++ [i]).length = count := by simpa using h
  simp [Aggregator.operate, h', aggEmit]

/-- While the buffer stays short of `count`, the aggregator only
accumulates: no emission, inputs appended in arrival order. -/
theorem aggRun_under (count : Nat) (c : FileData → FileData → Int)
    (f : FileData) (b l : List FileData) (h : b.length + l.length < count) :
    aggRun count c ⟨b, f⟩ l = (⟨b ++ l, f⟩, []) := by
  induction l generalizing b with
  | nil => simp [aggRun_nil]
  | cons i is ih =>
    have hne : b.length + 1 ≠ count := by
      simp only [List.length_cons] at h
      omega
    have h2 : (b ++ [i]).length + is.length < count := by
      simp only [List.length_append, List.length_cons, List.length_nil] at h ⊢
      omega
    rw [aggRun_cons, aggOperate_under count c b f i hne]
    simp [ih (b ++ [i]) h2]

/-- Feeding inputs that bring the buffer exactly to `count` makes the
aggregator emit exactly once, with the sorted whole batch under
`metadata.inputs`, and clears the buffer. -/
theorem aggRun_exact (count : Nat) (c : FileData → FileData → Int)
    (f : FileData) (b l : List FileData) (hl : l ≠ [])
    (h : b.length + l.length = count) :
    aggRun count c ⟨b, f⟩ l =
      (⟨[], aggEmit c f (b ++ l)⟩, [aggEmit c f (b ++ l)]) := by
  induction l generalizing b with
  | nil => exact absurd rfl hl
  | cons i is ih =>
    cases is with
    | nil =>
      have h1 : b.length + 1 = count := by
        simp only [List.length_cons, List.length_nil] at h
        omega
      rw [aggRun_cons, aggOperate_hit count c b f i h1]
      simp [aggRun_nil]
    | cons j js =>
      have hne : b.length + 1 ≠ count := by
        simp only [List.length_cons] at h
        omega
      have h2 : (b ++ [i]).length + (j :: js).length = count := by
        simp only [List.length_append, List.length_cons, List.length_nil] at h ⊢
        omega
      rw [aggRun_cons, aggOperate_under count c b f i hne]
      simp [ih (b ++ [i]) (by simp) h2]

/-!
## Step lemmas for the template stage
-/

theorem pugRun_nil (compile : String → FileData → String) (s : PugState) :
    pugRun compile s [] = (s, []) := rfl

theorem pugRun_cons (compile : String → FileData → String) (s : PugState)
    (i : FileData) (is : List FileData) :
    pugRun compile s (i :: is) =
      ((pugRun compile (PugCompiler.operate compile s i).1 is).1,
        (PugCompiler.operate compile s i).2 ++
          (pugRun compile (PugCompiler.operate compile s i).1 is).2) := rfl

/-- A data input while the template is ready renders and emits at once. -/
theorem pugOperate_data_ready (compile : String → FileData → String)
    (t : FileData → String) (pend : List FileData) (d : FileData)
    (hd : (d.extname == ".pug") = false) :
    PugCompiler.operate compile ⟨some t, pend⟩ d =
      (⟨some t, pend⟩, [d.setContent (t d)]) := by
  simp [PugCompiler.operate, hd]

/-- A data input while the template is still unresolved suspends (is
queued), emitting nothing yet. -/
theorem pugOperate_data_wait (compile : String → FileData → String)
    (pend : List FileData) (d : FileData) (hd : (d.extname == ".pug") = false) :
    PugCompiler.operate compile ⟨none, pend⟩ d = (⟨none, pend ++ [d]⟩, []) := by
  simp [PugCompiler.operate, hd]

/-- The first template input resolves the promise: the compiled template is
stored and every suspended input resumes, rendering in arrival order. -/
theorem pugOperate_tmpl_first (compile : String → FileData → String)
    (pend : List FileData) (tm : FileData) (ht : (tm.extname == ".pug") = true) :
    PugCompiler.operate compile ⟨none, pend⟩ tm =
      (⟨some (compile tm.content), []⟩,
        pend.map (fun p => p.setContent (compile tm.content p))) := by
  simp [PugCompiler.operate, ht]

/-- A template input after the promise is already resolved is a no-op:
resolving a resolved promise does not replace the stored template. -/
theorem pugOperate_tmpl_again (compile : String → FileData → String)
    (t : FileData → String) (pend : List FileData) (tm : FileData)
    (ht : (tm.extname == ".pug") = true) :
    PugCompiler.operate compile ⟨some t, pend⟩ tm = (⟨some t, pend⟩, []) := by
  simp [PugCompiler.operate, ht]

theorem metadataMatch_empty : metadataMatch "" = none := rfl

/-- Over lines that are all blank or metadata entries the scanning loop
never stops: it consumes everything and returns the accumulated object. -/
theorem parseMetaLoop_all (ls : List String) (md : Metadata)
    (h : ∀ l ∈ ls, l = "" ∨ metadataMatch l ≠ none) :
    parseMetaLoop ls md = .ok (mdFold ls md, []) := by
  induction ls generalizing md with
  | nil => rfl
  | cons l ls ih =>
    by_cases hb : l = ""
    · subst hb
      simp only [parseMetaLoop, if_pos rfl, mdFold, metadataMatch_empty]
      exact ih md fun x hx => h x (List.mem_cons_of_mem _ hx)
    · rcases h l (List.mem_cons_self l ls) with h' | h'
      · exact absurd h' hb
      · obtain ⟨⟨k, v⟩, hm⟩ := Option.ne_none_iff_exists'.mp h'
        simp only [parseMetaLoop, if_neg hb, hm, mdFold]
        exact ih _ fun x hx => h x (List.mem_cons_of_mem _ hx)

/-- Scanning stops at the title line: the title capture is stored under
`title` and the returned body is exactly the lines after the title line. -/
theorem parseMetaLoop_title (ms bs : List String) (t τ : String) (md : Metadata)
    (hm : ∀ l ∈ ms, l = "" ∨ metadataMatch l ≠ none)
    (hne : t ≠ "") (htm : metadataMatch t = none) (ht : titleMatch t = some τ) :
    parseMetaLoop (ms ++ t :: bs) md = .ok ((mdFold ms md).set "title" (.str τ), bs) := by
  induction ms generalizing md with
  | nil => simp only [List.nil_append, parseMetaLoop, if_neg hne, htm, ht, mdFold]
  | cons l ls ih =>
    by_cases hb : l = ""
    · subst hb
      simp only [List.cons_append, parseMetaLoop, if_pos rfl, mdFold, metadataMatch_empty]
      exact ih _ fun x hx => hm x (List.mem_cons_of_mem _ hx)
    · rcases hm l (List.mem_cons_self l ls) with h' | h'
      · exact absurd h' hb
      · obtain ⟨⟨k, v⟩, hmm⟩ := Option.ne_none_iff_exists'.mp h'
        simp only [List.cons_append, parseMetaLoop, if_neg hb, hmm, mdFold]
        exact ih _ fun x hx => hm x (List.mem_cons_of_mem _ hx)

/-- Scanning fails with `The post is malformed.` when it reaches, before
any title line, a non-blank line matching neither pattern. -/
theorem parseMetaLoop_err (pre post : List String) (bad : String) (md : Metadata)
    (hpre : ∀ l ∈ pre, titleMatch l = none)
    (hb : bad ≠ "") (hbm : metadataMatch bad = none) (hbt : titleMatch bad = none) :
    parseMetaLoop (pre ++ bad :: post) md = .error "The post is malformed." := by
  induction pre generalizing md with
  | nil => simp only [List.nil_append, parseMetaLoop, if_neg hb, hbm, hbt]
  | cons l ls ih =>
    by_cases hlb : l = ""
    · subst hlb
      simp only [List.cons_append, parseMetaLoop, if_pos rfl]
      exact ih _ fun x hx => hpre x (List.mem_cons_of_mem _ hx)
    · cases hm : metadataMatch l with
      | some kv =>
        simp only [List.cons_append, parseMetaLoop, if_neg hlb, hm]
        exact ih _ fun x hx => hpre x (List.mem_cons_of_mem _ hx)
      | none =>
        have hlt : titleMatch l = none := hpre l (List.mem_cons_self l ls)
        simp only [List.cons_append, parseMetaLoop, if_neg hlb, hm, hlt]

/-!
## Metadata object lemmas

(`Metadata` is part of a mutual inductive family, so these are proved by
equation-compiler recursion rather than the `induction` tactic.)
-/

theorem Metadata.append_nil : ∀ md : Metadata, md.append .nil = md
  | .nil => rfl
  | .cons k v rest => by
    simp only [Metadata.append]
    rw [Metadata.append_nil rest]

theorem Metadata.append_assoc : ∀ a : Metadata, ∀ b c : Metadata,
    (a.append b).append c = a.append (b.append c)
  | .nil, _, _ => rfl
  | .cons k v rest, b, c => by
    simp only [Metadata.append]
    rw [Metadata.append_assoc rest b c]

theorem Metadata.keys_append : ∀ a : Metadata, ∀ b : Metadata,
    (a.append b).keys = a.keys ++ b.keys
  | .nil, _ => rfl
  | .cons k v rest, b => by
    simp only [Metadata.append, Metadata.keys]
    rw [Metadata.keys_append rest b]
    rfl

/-- Assigning a key not yet present appends the entry at the end. -/
theorem Metadata.set_fresh : ∀ md : Metadata, ∀ k : String, ∀ v : MetaValue,
    k ∉ md.keys → md.set k v = md.append (.cons k v .nil)
  | .nil, _, _, _ => rfl
  | .cons k0 v0 rest, k, v, h => by
    simp only [Metadata.keys, List.mem_cons] at h
    push_neg at h
    simp only [Metadata.set, Metadata.append, if_neg (Ne.symm h.1)]
    rw [Metadata.set_fresh rest k v h.2]

theorem Metadata.find_set : ∀ md : Metadata, ∀ k k' : String, ∀ v : MetaValue,
    (md.set k v).find k' = if k = k' then some v else md.find k'
  | .nil, k, k', v => by simp [Metadata.set, Metadata.find]
  | .cons k0 v0 rest, k, k', v => by
    by_cases h0 : k0 = k
    · subst h0
      simp only [Metadata.set, if_pos rfl, Metadata.find]
      by_cases h1 : k0 = k' <;> simp [h1]
    · simp only [Metadata.set, if_neg h0, Metadata.find,
        Metadata.find_set rest k k' v]
      by_cases h1 : k0 = k'
      · subst h1
        have hne : ¬ k = k0 := fun he => h0 he.symm
        simp [hne]
      · simp [h1]

/-- Key membership after folding metadata lines into the object. -/
theorem mdFold_find_ne_none (ls : List String) (md : Metadata) (k : String) :
    (mdFold ls md).find k ≠ none ↔ k ∈ ls.filterMap lineKey ∨ md.find k ≠ none := by
  induction ls generalizing md with
  | nil => simp [mdFold]
  | cons l ls ih =>
    cases hm : metadataMatch l with
    | none =>
      have hfm : (l :: ls).filterMap lineKey = ls.filterMap lineKey := by
        simp [List.filterMap_cons, lineKey, hm]
      rw [hfm]
      simp only [mdFold, hm]
      exact ih md
    | some kv =>
      obtain ⟨k0, v⟩ := kv
      have hfm : (l :: ls).filterMap lineKey = k0 :: ls.filterMap lineKey := by
        simp [List.filterMap_cons, lineKey, hm]
      rw [hfm]
      simp only [mdFold, hm, List.mem_cons]
      rw [ih, Metadata.find_set]
      by_cases h0 : k0 = k
      · simp [h0]
      · have hne : ¬ k = k0 := fun he => h0 he.symm
        simp only [if_neg h0, hne, false_or]

/-- With pairwise-distinct fresh keys, folding the lines appends the
entries in line order (nothing is overwritten). -/
theorem mdFold_entries (ls : List String) (md : Metadata)
    (hnd : (ls.filterMap lineKey).Nodup)
    (hfresh : ∀ k ∈ ls.filterMap lineKey, k ∉ md.keys) :
    mdFold ls md = md.append (entriesOf ls) := by
  induction ls generalizing md with
  | nil => simp [mdFold, entriesOf, Metadata.append_nil]
  | cons l ls ih =>
    cases hm : metadataMatch l with
    | none =>
      simp only [mdFold, hm, entriesOf]
      have hfm : (l :: ls).filterMap lineKey = ls.filterMap lineKey := by
        simp [List.filterMap_cons, lineKey, hm]
      rw [hfm] at hnd hfresh
      exact ih md hnd hfresh
    | some kv =>
      obtain ⟨k0, v⟩ := kv
      have hfm : (l :: ls).filterMap lineKey = k0 :: ls.filterMap lineKey := by
        simp [List.filterMap_cons, lineKey, hm]
      rw [hfm] at hnd hfresh
      rw [List.nodup_cons] at hnd
      simp only [mdFold, hm, entriesOf]
      rw [Metadata.set_fresh md k0 _ (hfresh k0 (List.mem_cons_self _ _))]
      rw [ih _ hnd.2 ?fresh]
      · rw [Metadata.append_assoc]
        rfl
      case fresh =>
        intro k hk
        rw [Metadata.keys_append]
        simp only [List.mem_append, Metadata.keys, List.mem_singleton]
        push_neg
        refine ⟨hfresh k (List.mem_cons_of_mem _ hk), ?_⟩
        exact fun he => hnd.1 (he ▸ hk)

/-- Canonical serialization of the parsed entries: one canonical line per
non-blank original line, in order. -/
theorem serializeMeta_entriesOf (ls : List String)
    (hok : ∀ l ∈ ls, l = "" ∨ metadataMatch l ≠ none) :
    serializeMeta (entriesOf ls) = (ls.filter (fun l => l != "")).map canonLine := by
  induction ls with
  | nil => rfl
  | cons l ls ih =>
    by_cases hb : l = ""
    · subst hb
      rw [@List.filter_cons_of_neg String (fun x => x != "") "" ls (by decide)]
      simp only [entriesOf, metadataMatch_empty]
      exact ih fun x hx => hok x (List.mem_cons_of_mem _ hx)
    · rcases hok l (List.mem_cons_self l ls) with h' | h'
      · exact absurd h' hb
      · obtain ⟨⟨k, v⟩, hm⟩ := Option.ne_none_iff_exists'.mp h'
        have hbv : (l != "") = true := by simpa using hb
        rw [@List.filter_cons_of_pos String (fun x => x != "") l ls hbv, List.map_cons]
        simp only [entriesOf, hm, serializeMeta]
        rw [show canonLine l = serializeEntry k (splitTrim v) by
          simp [canonLine, hm]]
        exact congrArg _ (ih fun x hx => hok x (List.mem_cons_of_mem _ hx))

/-- The parsed keys are the line keys, in line order. -/
theorem keys_entriesOf (ls : List String) :
    (entriesOf ls).keys = ls.filterMap lineKey := by
  induction ls with
  | nil => rfl
  | cons l ls ih =>
    cases hm : metadataMatch l with
    | none => simp [entriesOf, hm, List.filterMap_cons, lineKey, ih]
    | some kv =>
      obtain ⟨k0, v⟩ := kv
      simp [entriesOf, hm, List.filterMap_cons, lineKey, Metadata.keys, ih]

/-!
## Greedy-split lemmas for `metadataRegex`
-/

/-- `" *(.+)$"` matches every nonempty input. -/
theorem matchSpacesThenRest_of_ne : ∀ w : List Char, w ≠ [] →
    ∃ v, matchSpacesThenRest w = some v
  | [], h => absurd rfl h
  | c :: ws, _ => by
    by_cases hc : c = ' '
    · simp only [matchSpacesThenRest, if_pos hc]
      cases hr : matchSpacesThenRest ws with
      | some r => exact ⟨r, rfl⟩
      | none => exact ⟨c :: ws, rfl⟩
    · exact ⟨c :: ws, by simp only [matchSpacesThenRest, if_neg hc]⟩

/-- `"(.+): *(.+)$"` cannot match a string whose only colon, if any, is its
final character (the final group would be empty). -/
theorem matchKeyRest_none : ∀ w : List Char, ∀ acc : List Char,
    (∀ i, w.get? i = some ':' → i + 1 = w.length) → matchKeyRest w acc = none
  | [], _, _ => rfl
  | c :: w', acc, hcol => by
    have h' : ∀ i, w'.get? i = some ':' → i + 1 = w'.length := by
      intro i hi
      have := hcol (i + 1) (by simpa using hi)
      simpa using this
    simp only [matchKeyRest, matchKeyRest_none w' (c :: acc) h']
    by_cases hcc : c = ':' ∧ acc ≠ []
    · have hw0 : w' = [] := by
        have h0 := hcol 0 (by simp [hcc.1])
        simp only [List.length_cons] at h0
        exact List.length_eq_zero.mp (by omega)
      subst hw0
      simp [hcc, matchSpacesThenRest]
    · simp [hcc]

/-- The greedy first group extends to the last colon that still leaves a
nonempty tail: on `k ++ ':' :: w` where `w` has no non-final colon, the
captured key is exactly `k` (prefixed by any backtracked accumulator). -/
theorem matchKeyRest_split : ∀ k : List Char, ∀ acc w : List Char,
    acc.reverse ++ k ≠ [] → w ≠ [] →
    (∀ i, w.get? i = some ':' → i + 1 = w.length) →
    matchKeyRest (k ++ ':' :: w) acc =
      (matchSpacesThenRest w).map (fun v => (acc.reverse ++ k, v))
  | [], acc, w, hk, hw, hcol => by
    have hacc : acc ≠ [] := by
      intro h
      apply hk
      simp [h]
    have hrec : matchKeyRest w (':' :: acc) = none := matchKeyRest_none w _ hcol
    obtain ⟨v, hv⟩ := matchSpacesThenRest_of_ne w hw
    simp [matchKeyRest, hrec, hacc, hv]
  | c :: k', acc, w, hk, hw, hcol => by
    have hk' : (c :: acc).reverse ++ k' ≠ [] := by simp
    have hrec := matchKeyRest_split k' (c :: acc) w hk' hw hcol
    obtain ⟨v, hv⟩ := matchSpacesThenRest_of_ne w hw
    rw [hv] at hrec
    simp only [Option.map_some'] at hrec
    simp only [List.cons_append, matchKeyRest, hv, Option.map_some', List.append_eq]
    rw [hrec]
    simp [List.reverse_cons, List.append_assoc]

/-- Full statement at the `metadataMatch` level, for a line of the shape
`- key: ...` (one space after the dash, key not starting with a space). -/
theorem metadataMatch_split (k w : List Char) (hk : k ≠ [])
    (hk0 : ∀ c, k.head? = some c → c ≠ ' ') (hw : w ≠ [])
    (hcol : ∀ i, w.get? i = some ':' → i + 1 = w.length) :
    metadataMatch ⟨'-' :: ' ' :: (k ++ ':' :: w)⟩ =
      (matchSpacesThenRest w).map (fun v => ((⟨k⟩ : String), (⟨v⟩ : String))) := by
  obtain ⟨c0, k', rfl⟩ : ∃ c0 k', k = c0 :: k' := by
    cases k with
    | nil => exact absurd rfl hk
    | cons c0 k' => exact ⟨c0, k', rfl⟩
  have hc0 : c0 ≠ ' ' := hk0 c0 rfl
  obtain ⟨v, hv⟩ := matchSpacesThenRest_of_ne w hw
  have hsplit := matchKeyRest_split (c0 :: k') [] w (by simp) hw hcol
  rw [hv] at hsplit
  simp only [Option.map_some', List.reverse_nil, List.nil_append] at hsplit
  have h1 : metadataMatch ⟨'-' :: ' ' :: ((c0 :: k') ++ ':' :: w)⟩ =
      (match matchAfterDash (' ' :: ((c0 :: k') ++ ':' :: w)) with
        | some (k, v) => some ((⟨k⟩ : String), (⟨v⟩ : String))
        | none => none) := rfl
  have h2 : matchAfterDash (' ' :: ((c0 :: k') ++ ':' :: w)) =
      (match matchAfterDash ((c0 :: k') ++ ':' :: w) with
        | some r => some r
        | none => matchKeyRest (' ' :: ((c0 :: k') ++ ':' :: w)) []) := rfl
  have h3 : matchAfterDash ((c0 :: k') ++ ':' :: w) =
      matchKeyRest ((c0 :: k') ++ ':' :: w) [] := by
    rw [show ((c0 :: k') ++ ':' :: w) = c0 :: (k' ++ ':' :: w) from rfl]
    simp only [matchAfterDash, if_neg hc0]
  rw [h1, h2, h3, hsplit, hv]
  simp

/-- Bridge for the decidable no-non-final-colon hypothesis: if the list
without its last character contains no colon, every colon index is final. -/
theorem no_inner_colon : ∀ w : List Char, ':' ∉ w.dropLast →
    ∀ i, w.get? i = some ':' → i + 1 = w.length
  | [], _, i, hi => by simp at hi
  | c :: w', h, 0, hi => by
    simp only [List.get?] at hi
    injection hi with hc
    cases w' with
    | nil => rfl
    | cons d w'' =>
      subst hc
      simp [List.dropLast] at h
  | c :: w', h, i + 1, hi => by
    have h' : ':' ∉ w'.dropLast := by
      cases w' with
      | nil => simp
      | cons d w'' =>
        intro hmem
        exact h (by simpa [List.dropLast] using Or.inr hmem)
    have := no_inner_colon w' h' i (by simpa using hi)
    simp only [List.length_cons]
    omega

/-- C1 counterexample: for the post `# Hello\nWorld` the body handed to the
renderer is `World` alone — the title line is shifted off before the scan
breaks, so it is NOT included and the rendered content does not begin with
the title heading (here `render = id`, exposing the body verbatim). -/
theorem title_line_excluded_cex :
    PostParser.operate id fHello =
      .ok (.mk "" "posts" ".html" "h" "World" (.cons "title" (.str "Hello") .nil)) ∧
    ("World" : String) ≠ "# Hello\nWorld" ∧ ("World" : String).data.head? ≠ some '#' :=
  ⟨rfl, by decide, by decide⟩

/-- C1 (amended): the title line is consumed by the preamble scan and
excluded from the body passed to the markdown renderer: for any document
whose lines split as well-formed preamble `ms`, title line `t`, body `bs`,
the parser stores the captured title under `title` and renders exactly
`joinNl bs` — the lines strictly after the title line. -/
theorem title_line_excluded (render : String → String) (file : FileData)
    (ms bs : List String) (t τ : String)
    (hsplit : jsSplitLines file.content = ms ++ t :: bs)
    (hm : ∀ l ∈ ms, l = "" ∨ metadataMatch l ≠ none)
    (hne : t ≠ "") (htm : metadataMatch t = none) (ht : titleMatch t = some τ) :
    PostParser.operate render file =
      .ok (((file.setMetadata ((mdFold ms .nil).set "title" (.str τ))).setContent
        (render (joinNl bs))).setExtname ".html") := by
  unfold PostParser.operate
  rw [hsplit, parseMetaLoop_title ms bs t τ .nil hm hne htm ht]

/-- Witness for C1's amended theorem at a concrete post. -/
theorem title_line_excluded_witness :
    jsSplitLines fW1.content = ["- a: 1"] ++ "# T" :: ["body"] ∧
    PostParser.operate id fW1 =
      .ok (((fW1.setMetadata ((mdFold ["- a: 1"] .nil).set "title" (.str "T"))).setContent
        (id (joinNl ["body"]))).setExtname ".html") :=
  ⟨by decide, title_line_excluded id fW1 ["- a: 1"] ["body"] "# T" "T" (by decide)
    (by decide) (by decide) (by decide) (by decide)⟩

/-- C6: a document with a non-blank line before any title line that matches
neither the metadata-entry nor the title pattern makes `PostParser.operate`
raise `The post is malformed.`; an error produces no output record, so no
file is written for that document (`Pipe.execute` forwards only produced
outputs). -/
theorem malformed_rejected (render : String → String) (file : FileData)
    (pre post : List String) (bad : String)
    (hsplit : jsSplitLines file.content = pre ++ bad :: post)
    (hpre : ∀ l ∈ pre, titleMatch l = none)
    (hb : bad ≠ "") (hbm : metadataMatch bad = none) (hbt : titleMatch bad = none) :
    PostParser.operate render file = .error "The post is malformed." := by
  unfold PostParser.operate
  rw [hsplit, parseMetaLoop_err pre post bad .nil hpre hb hbm hbt]

/-- Witness for C6 at the spec's own example line `not valid metadata`. -/
theorem malformed_rejected_witness :
    jsSplitLines fBad.content = [] ++ "not valid metadata" :: ["# T"] ∧
    PostParser.operate id fBad = .error "The post is malformed." :=
  ⟨by decide, malformed_rejected id fBad [] ["# T"] "not valid metadata" (by decide)
    (by decide) (by decide) (by decide) (by decide)⟩

/-- C9 counterexample: the document consisting of the single well-formed
metadata line `- title: x` has no title line, yet the parsed metadata DOES
contain a `title` key (contributed by the entry itself), contradicting the
claim's "no `title` key in metadata". -/
theorem no_title_key_cex :
    PostParser.operate id fTitleKey =
      .ok (.mk "" "posts" ".html" "t" "" (.cons "title" (.strs ["x"]) .nil)) ∧
    (Metadata.cons "title" (.strs ["x"]) .nil).find "title" ≠ none :=
  ⟨rfl, by simp [Metadata.find]⟩

/-- C9 (amended): a document whose lines are all blank or well-formed
metadata entries (hence with no title line anywhere) parses without
failing: the result keeps the parsed entries, renders the empty remaining
body, and switches the extension to `.html`; its metadata has a `title`
key exactly when some metadata line itself uses the key `title`. -/
theorem missing_title_ok (render : String → String) (file : FileData)
    (h : ∀ l ∈ jsSplitLines file.content, l = "" ∨ metadataMatch l ≠ none) :
    PostParser.operate render file =
      .ok (((file.setMetadata (mdFold (jsSplitLines file.content) .nil)).setContent
        (render "")).setExtname ".html") ∧
    ((mdFold (jsSplitLines file.content) .nil).find "title" ≠ none ↔
      "title" ∈ (jsSplitLines file.content).filterMap lineKey) := by
  constructor
  · unfold PostParser.operate
    rw [parseMetaLoop_all _ _ h]
    rfl
  · rw [mdFold_find_ne_none]
    simp [Metadata.find]

/-- Witness for C9's amended theorem at a concrete title-less post. -/
theorem missing_title_ok_witness :
    (∀ l ∈ jsSplitLines fNoTitle.content, l = "" ∨ metadataMatch l ≠ none) ∧
    (PostParser.operate id fNoTitle =
      .ok (((fNoTitle.setMetadata (mdFold (jsSplitLines fNoTitle.content) .nil)).setContent
        (id "")).setExtname ".html") ∧
    ((mdFold (jsSplitLines fNoTitle.content) .nil).find "title" ≠ none ↔
      "title" ∈ (jsSplitLines fNoTitle.content).filterMap lineKey)) :=
  ⟨by decide, missing_title_ok id fNoTitle (by decide)⟩

/-- C8 counterexample: the well-formed preamble `- a: 1`, `- a: 2` with a
duplicated key parses to a single entry (JavaScript assignment overwrites),
so re-serializing yields one line, not the two canonical original lines:
key insertion order does not equal line order and the round-trip fails. -/
theorem metadata_roundtrip_cex :
    parseMetaLoop ["- a: 1", "- a: 2"] .nil =
      .ok (.cons "a" (.strs ["2"]) .nil, []) ∧
    serializeMeta (.cons "a" (.strs ["2"]) .nil) = ["- a: 2"] ∧
    (["- a: 2"] : List String) ≠
      (["- a: 1", "- a: 2"].filter (fun l => l != "")).map canonLine :=
  ⟨rfl, rfl, by decide⟩

/-- C8 (amended): for a well-formed preamble whose metadata lines carry
pairwise-distinct keys, parsing yields one entry per non-blank line with
key order equal to line order and each key mapped to its comma-split,
whitespace-trimmed value array; re-serializing the mapping reproduces the
original lines in canonical (trimmed) form. -/
theorem metadata_roundtrip (ls : List String)
    (hok : ∀ l ∈ ls, l = "" ∨ metadataMatch l ≠ none)
    (hnd : (ls.filterMap lineKey).Nodup) :
    parseMetaLoop ls .nil = .ok (entriesOf ls, []) ∧
    (entriesOf ls).keys = ls.filterMap lineKey ∧
    serializeMeta (entriesOf ls) = (ls.filter (fun l => l != "")).map canonLine := by
  refine ⟨?_, keys_entriesOf ls, serializeMeta_entriesOf ls hok⟩
  rw [parseMetaLoop_all ls .nil hok]
  rw [mdFold_entries ls .nil hnd (by intro k _; simp [Metadata.keys])]
  rfl

/-- Witness for C8's amended theorem at a concrete preamble. -/
theorem metadata_roundtrip_witness :
    (∀ l ∈ ["- date: 2020-12-10", "", "- tags: a, b"], l = "" ∨ metadataMatch l ≠ none) ∧
    ((["- date: 2020-12-10", "", "- tags: a, b"].filterMap lineKey).Nodup) ∧
    (parseMetaLoop ["- date: 2020-12-10", "", "- tags: a, b"] .nil =
      .ok (entriesOf ["- date: 2020-12-10", "", "- tags: a, b"], []) ∧
    (entriesOf ["- date: 2020-12-10", "", "- tags: a, b"]).keys =
      ["- date: 2020-12-10", "", "- tags: a, b"].filterMap lineKey ∧
    serializeMeta (entriesOf ["- date: 2020-12-10", "", "- tags: a, b"]) =
      (["- date: 2020-12-10", "", "- tags: a, b"].filter (fun l => l != "")).map canonLine) :=
  ⟨by decide, by decide, metadata_roundtrip _ (by decide) (by decide)⟩

/-- C10 counterexample: the metadata line `- a:b:` has two colons after the
dash, but the split is NOT at the last colon (which is final): the key is
`a`, not `a:b`, and the raw value is `b:`. -/
theorem last_colon_cex :
    metadataMatch "- a:b:" = some ("a", "b:") ∧ ("a" : String) ≠ "a:b" :=
  ⟨by decide, by decide⟩

/-- C10 (amended): because the key group is greedy, a metadata line
`- key: ...` splits at the last colon that still has at least one character
after it (so only a line-final colon is passed over): for any key text `k`
(not starting with a space, colons allowed inside) and any tail `w` whose
only colon, if any, is its final character, the captured key is exactly
`k`; in particular `- time: 12`:`30` splits into key `time: 12` and value
`30`. -/
theorem greedy_colon_split (k w : List Char) (hk : k ≠ [])
    (hk0 : k.head? ≠ some ' ') (hw : w ≠ []) (hcol : ':' ∉ w.dropLast) :
    metadataMatch ⟨'-' :: ' ' :: (k ++ ':' :: w)⟩ =
      (matchSpacesThenRest w).map (fun v => ((⟨k⟩ : String), (⟨v⟩ : String))) ∧
    (metadataMatch ⟨'-' :: ' ' :: (k ++ ':' :: w)⟩).map Prod.fst =
      some (⟨k⟩ : String) := by
  have hk0' : ∀ c, k.head? = some c → c ≠ ' ' := by
    intro c hc he
    exact hk0 (by rw [hc, he])
  have hm := metadataMatch_split k w hk hk0' hw (no_inner_colon w hcol)
  refine ⟨hm, ?_⟩
  obtain ⟨v, hv⟩ := matchSpacesThenRest_of_ne w hw
  rw [hm, hv]
  rfl

/-- Witness for C10's amended theorem at the claim's own example
`- time: 12:30`, whose key is `time: 12` and value list `30`. -/
theorem greedy_colon_split_witness :
    ((['t', 'i', 'm', 'e', ':', ' ', '1', '2'] : List Char) ≠ []) ∧
    (['t', 'i', 'm', 'e', ':', ' ', '1', '2'].head? ≠ some ' ') ∧
    ((['3', '0'] : List Char) ≠ []) ∧
    (':' ∉ (['3', '0'] : List Char).dropLast) ∧
    (metadataMatch ⟨'-' :: ' ' :: (['t', 'i', 'm', 'e', ':', ' ', '1', '2'] ++
        ':' :: ['3', '0'])⟩ =
      (matchSpacesThenRest ['3', '0']).map
        (fun v => ((⟨['t', 'i', 'm', 'e', ':', ' ', '1', '2']⟩ : String),
          (⟨v⟩ : String))) ∧
    (metadataMatch ⟨'-' :: ' ' :: (['t', 'i', 'm', 'e', ':', ' ', '1', '2'] ++
        ':' :: ['3', '0'])⟩).map Prod.fst =
      some (⟨['t', 'i', 'm', 'e', ':', ' ', '1', '2']⟩ : String)) ∧
    metadataMatch "- time: 12:30" = some ("time: 12", "30") ∧
    splitTrim "30" = ["30"] :=
  ⟨by decide, by decide, by decide, by decide,
    greedy_colon_split _ _ (by decide) (by decide) (by decide) (by decide),
    by decide, by decide⟩

/-- C7 counterexample: the early revision's `Pipe.pipe` pushes without the
`includes` check, so piping the same downstream node twice registers it
twice, and one upstream emission dispatches `execute` to it twice (its
multiplicity in `nextPipes`). -/
theorem pipe_duplicate_cex :
    PipeEarly.pipe (PipeEarly.pipe [] 7) 7 = [7, 7] ∧
    (PipeEarly.pipe (PipeEarly.pipe [] 7) 7).count 7 = 2 ∧ (2 : Nat) ≠ 1 :=
  ⟨rfl, by decide, by decide⟩

/-- C7 (amended): the full revision's `Pipe.pipe` checks `includes` before
pushing, so linking the same node twice is idempotent: the second call is a
no-op and a fresh downstream node ends registered exactly once, hence one
`execute` dispatch per upstream emission. -/
theorem pipe_idempotent (l : List Nat) (q : Nat) (h : q ∉ l) :
    Pipe.pipe (Pipe.pipe l q) q = Pipe.pipe l q ∧ (Pipe.pipe l q).count q = 1 := by
  unfold Pipe.pipe
  rw [if_neg h]
  constructor
  · rw [if_pos (by simp)]
  · rw [List.count_append]
    simp [List.count_eq_zero.mpr h]

/-- Witness for C7's amended theorem. -/
theorem pipe_idempotent_witness :
    (7 ∉ [3]) ∧
    (Pipe.pipe (Pipe.pipe [3] 7) 7 = Pipe.pipe [3] 7 ∧ (Pipe.pipe [3] 7).count 7 = 1) :=
  ⟨by decide, pipe_idempotent [3] 7 (by decide)⟩

/-- C3: a data record fed before the template is not dropped: it is held
until the template resolves and then rendered and emitted, and the two
feeding orders (data-then-template, template-then-data) leave the same
state and emit the same single record with identical content. -/
theorem pug_deferred_render (compile : String → FileData → String)
    (d tmpl : FileData) (hd : (d.extname == ".pug") = false)
    (ht : (tmpl.extname == ".pug") = true) :
    pugRun compile pugInit [d, tmpl] = pugRun compile pugInit [tmpl, d] ∧
    (pugRun compile pugInit [d, tmpl]).2 =
      [d.setContent (compile tmpl.content d)] := by
  have h1 := pugOperate_data_wait compile [] d hd
  have h2 := pugOperate_tmpl_first compile [d] tmpl ht
  have h3 := pugOperate_tmpl_first compile [] tmpl ht
  have h4 := pugOperate_data_ready compile (compile tmpl.content) [] d hd
  have run1 : pugRun compile pugInit [d, tmpl] =
      (⟨some (compile tmpl.content), []⟩, [d.setContent (compile tmpl.content d)]) := by
    simp [pugRun_cons, pugRun_nil, pugInit, h1, h2]
  have run2 : pugRun compile pugInit [tmpl, d] =
      (⟨some (compile tmpl.content), []⟩, [d.setContent (compile tmpl.content d)]) := by
    simp [pugRun_cons, pugRun_nil, pugInit, h3, h4]
  exact ⟨run1.trans run2.symm, by rw [run1]⟩

/-- Witness for C3 at a concrete template and data record. -/
theorem pug_deferred_render_witness :
    ((dRec.extname == ".pug") = false) ∧ ((tmplA.extname == ".pug") = true) ∧
    (pugRun compile0 pugInit [dRec, tmplA] = pugRun compile0 pugInit [tmplA, dRec] ∧
    (pugRun compile0 pugInit [dRec, tmplA]).2 =
      [dRec.setContent (compile0 tmplA.content dRec)]) :=
  ⟨by decide, by decide, pug_deferred_render compile0 dRec tmplA (by decide) (by decide)⟩

/-- C4 counterexample: with a template engine that renders the template
source itself, feeding templates `A` then `B` and then a data record emits
content `A` — the SECOND template does not replace the first (resolving an
already-resolved promise is a no-op), contradicting last-write-wins. -/
theorem pug_last_write_cex :
    (pugRun compileSrc pugInit [tmplA, tmplB, dRec]).2.map FileData.content = ["A"] ∧
    (["A"] : List String) ≠ ["B"] :=
  ⟨rfl, by decide⟩

/-- C4 (amended): the template stage is first-write-wins: a template input
received while a template is already stored leaves the state unchanged and
emits nothing, and a data record fed after two template inputs is rendered
with the FIRST template. -/
theorem pug_first_write_wins (compile : String → FileData → String)
    (t : FileData → String) (pend : List FileData) (t1 t2 d : FileData)
    (ht1 : (t1.extname == ".pug") = true) (ht2 : (t2.extname == ".pug") = true)
    (hd : (d.extname == ".pug") = false) :
    PugCompiler.operate compile ⟨some t, pend⟩ t2 = (⟨some t, pend⟩, []) ∧
    (pugRun compile pugInit [t1, t2, d]).2 =
      [d.setContent (compile t1.content d)] := by
  refine ⟨pugOperate_tmpl_again compile t pend t2 ht2, ?_⟩
  have h3 := pugOperate_tmpl_first compile [] t1 ht1
  have h5 := pugOperate_tmpl_again compile (compile t1.content) [] t2 ht2
  have h4 := pugOperate_data_ready compile (compile t1.content) [] d hd
  simp [pugRun_cons, pugRun_nil, pugInit, h3, h5, h4]

/-- Witness for C4's amended theorem. -/
theorem pug_first_write_wins_witness :
    ((tmplA.extname == ".pug") = true) ∧ ((tmplB.extname == ".pug") = true) ∧
    ((dRec.extname == ".pug") = false) ∧
    (PugCompiler.operate compileSrc ⟨some (compileSrc "X"), []⟩ tmplB =
      (⟨some (compileSrc "X"), []⟩, []) ∧
    (pugRun compileSrc pugInit [tmplA, tmplB, dRec]).2 =
      [dRec.setContent (compileSrc tmplA.content dRec)]) :=
  ⟨by decide, by decide, by decide,
    pug_first_write_wins compileSrc (compileSrc "X") [] tmplA tmplB dRec
      (by decide) (by decide) (by decide)⟩

/-- Feeding two batches in sequence runs the second from the state the
first left behind, concatenating the emissions. -/
theorem aggRun_append (count : Nat) (c : FileData → FileData → Int)
    (s : AggState) (l1 l2 : List FileData) :
    aggRun count c s (l1 ++ l2) =
      ((aggRun count c (aggRun count c s l1).1 l2).1,
        (aggRun count c s l1).2 ++ (aggRun count c (aggRun count c s l1).1 l2).2) := by
  induction l1 generalizing s with
  | nil => simp [aggRun_nil]
  | cons i is ih =>
    rw [List.cons_append, aggRun_cons, ih (Aggregator.operate count c s i).1, aggRun_cons]
    simp [List.append_assoc]

/-- C2 counterexample: with `expectedCount = 1` (allowed by the claim's
`N > 0`), feeding N+1 = 2 inputs yields TWO emissions and an empty buffer —
the (N+1)th input immediately completes a second batch instead of sitting
in the buffer, contradicting "emitted exactly once ... buffer holds only
the (N+1)th input". -/
theorem aggregator_exactness_cex :
    (aggRun 1 postCompare ⟨[], idx0⟩ [p10, p08]).2.length = 2 ∧
    (aggRun 1 postCompare ⟨[], idx0⟩ [p10, p08]).1.buf = [] ∧
    (2 : Nat) ≠ 1 ∧ (([] : List FileData) ≠ [p08]) :=
  ⟨rfl, rfl, by decide, fun h => List.noConfusion h⟩

/-- C2 (amended): for `expectedCount = N > 0`: fewer than N inputs emit
nothing and stay buffered in arrival order; exactly N inputs emit exactly
one record carrying the comparator-sorted batch under `metadata.inputs`
and clear the buffer; and for N ≥ 2, N+1 inputs emit exactly once (after
the Nth) leaving only the (N+1)th input buffered as the next batch's
start. -/
theorem aggregator_exactness (count : Nat) (c : FileData → FileData → Int)
    (f0 : FileData) (h : 0 < count) :
    (∀ l : List FileData, l.length < count →
      aggRun count c ⟨[], f0⟩ l = (⟨l, f0⟩, [])) ∧
    (∀ l : List FileData, l.length = count →
      aggRun count c ⟨[], f0⟩ l = (⟨[], aggEmit c f0 l⟩, [aggEmit c f0 l])) ∧
    (∀ (l : List FileData) (x : FileData), l.length = count → 2 ≤ count →
      aggRun count c ⟨[], f0⟩ (l ++ [x]) =
        (⟨[x], aggEmit c f0 l⟩, [aggEmit c f0 l])) := by
  refine ⟨?_, ?_, ?_⟩
  · intro l hl
    have := aggRun_under count c f0 [] l (by simpa using hl)
    simpa using this
  · intro l hl
    have hne : l ≠ [] := by
      intro he
      rw [he] at hl
      simp at hl
      omega
    have := aggRun_exact count c f0 [] l hne (by simpa using hl)
    simpa using this
  · intro l x hl h2
    have hne : l ≠ [] := by
      intro he
      rw [he] at hl
      simp at hl
      omega
    have e1 := aggRun_exact count c f0 [] l hne (by simpa using hl)
    simp only [List.nil_append] at e1
    have e2 := aggRun_under count c (aggEmit c f0 l) [] [x]
      (by simp only [List.length_nil, List.length_cons]; omega)
    simp only [List.nil_append] at e2
    rw [aggRun_append, e1]
    simp only [e2]
    simp

/-- Witness for C2's amended theorem at `N = 2`. -/
theorem aggregator_exactness_witness :
    (0 < 2) ∧
    ((∀ l : List FileData, l.length < 2 →
      aggRun 2 postCompare ⟨[], idx0⟩ l = (⟨l, idx0⟩, [])) ∧
    (∀ l : List FileData, l.length = 2 →
      aggRun 2 postCompare ⟨[], idx0⟩ l =
        (⟨[], aggEmit postCompare idx0 l⟩, [aggEmit postCompare idx0 l])) ∧
    (∀ (l : List FileData) (x : FileData), l.length = 2 → 2 ≤ 2 →
      aggRun 2 postCompare ⟨[], idx0⟩ (l ++ [x]) =
        (⟨[x], aggEmit postCompare idx0 l⟩, [aggEmit postCompare idx0 l]))) :=
  ⟨by decide, aggregator_exactness 2 postCompare idx0 (by decide)⟩

/-- C5: the post-listing aggregation order: the emitted `inputs` batch is
sorted by the `date` metadata value descending (`keyGe FileData.date0`
holds pairwise along the output), the sort is stable (for every date `d`,
the records carrying `d` appear in arrival order: filtering by `d` commutes
with sorting), and concretely posts dated 2020-12-10, 2020-12-08,
2020-12-09 fed in that arrival order are emitted under `metadata.inputs`
ordered 2020-12-10, 2020-12-09, 2020-12-08. -/
theorem post_listing_order :
    (∀ l : List FileData,
      (jsSort postCompare l).Pairwise (keyGe FileData.date0)) ∧
    (∀ (l : List FileData) (d : String),
      (jsSort postCompare l).filter (fun z => z.date0 == d) =
        l.filter (fun z => z.date0 == d)) ∧
    (aggRun 3 postCompare ⟨[], idx0⟩ [p10, p08, p09]).2.map
        (fun f => f.metadata.find "inputs") =
      [some (.files (FileList.ofList [p10, p09, p08]))] := by
  refine ⟨?_, ?_, ?_⟩
  · intro l
    rw [postCompare_def]
    exact pairwise_jsSort FileData.date0 l
  · intro l d
    rw [postCompare_def]
    exact filter_jsSort FileData.date0 d l
  · rfl
